import Mathlib

/-!
Verification development for the medical-document summarization pipeline
(src/app.py).  The pipeline is: OCR extraction of text lines, recursive
text splitting into bounded chunks, one model call per chunk, and a
space-join of the per-chunk summaries.

The external service calls (Textract, Bedrock) are embedded as explicit
function parameters describing the outcome of each call; file contents and
the local file system are embedded as explicit values.  The text splitter
is library code (langchain RecursiveCharacterTextSplitter) whose source is
not part of the repository; it is modelled from the specification of the
Text Splitter component, over `List Char`.
-/

set_option maxHeartbeats 1000000

/-! ## Summarizer (generate_summary, src/app.py lines 144-180) -/

/-- A conversation turn in the Bedrock request body, a dict with a
role and a content string. -/
structure Message where
  role : String
  content : String

/-- The JSON body sent to bedrock.invoke_model for one chunk. -/
structure RequestBody where
  max_tokens : Nat
  messages : List Message
  anthropic_version : String

/-- The three-turn prompt built in the loop of generate_summary for one chunk:
task framing, simulated assistant acknowledgment, then the chunk verbatim. -/
def summaryMessages (chunk : String) : List Message :=
  [⟨"user", "I have a medical document that I\x27d like summarized. Output should have short description with the Patient\x27s Complaint, History and Observations."⟩,
   ⟨"assistant", "Sure, I can help with that. Please provide the text of the medical document."⟩,
   ⟨"user", chunk⟩]

/-- The request body for one chunk: max_tokens 1000, the three messages,
and the fixed protocol version string. -/
def summaryRequest (chunk : String) : RequestBody :=
  ⟨1000, summaryMessages chunk, "bedrock-2023-05-31"⟩

/-- One content part of a model response body. -/
structure ContentPart where
  text : String

/-- Parsed model response body: the content key may be absent
(`response_body.get("content", ...)` then yields the fallback value). -/
structure ResponseBody where
  content : Option (List ContentPart)

/-- Outcome of one bedrock.invoke_model call: a parsed response body, or a
raised error (ClientError or any other exception during the call). -/
inductive CallResult where
  | ok (body : ResponseBody)
  | err

/-- The body of the per-chunk try-block in generate_summary.
`output = response_body.get("content", "No summary generated")` followed by
`summaries.append(output[0]["text"])`: when the content key is absent, output
is the fallback string and `output[0]["text"]` raises TypeError (indexing a
character by a string key); when content is an empty list, `output[0]` raises
IndexError; both exceptions and any call error are caught by the except
branches, which make generate_summary return None. -/
def summarizeChunk (call : RequestBody → CallResult) (chunk : String) : Option String :=
  match call (summaryRequest chunk) with
  | CallResult.err => none
  | CallResult.ok body =>
    match body.content with
    | none => none
    | some [] => none
    | some (part :: _) => some part.text

/-- The loop of generate_summary: per-chunk summaries are collected in chunk
order; a failure on any chunk aborts the whole loop with None. -/
def summarizeAll (call : RequestBody → CallResult) : List String → Option (List String)
  | [] => some []
  | chunk :: rest =>
    match summarizeChunk call chunk with
    | none => none
    | some s => (summarizeAll call rest).map (fun ss => s :: ss)

/-- generate_summary (src/app.py): returns the space-join of the per-chunk
summaries on success and None as soon as any chunk fails. -/
def generate_summary (call : RequestBody → CallResult) (documents : List String) :
    Option String :=
  (summarizeAll call documents).map (fun ss => String.intercalate " " ss)

/-! ### Helper lemmas about the summarizer -/

/-- A successful per-chunk summary is the text of the first content part of a
successful model response with a non-empty content list. -/
theorem summarizeChunk_some (call : RequestBody → CallResult) (c s : String)
    (h : summarizeChunk call c = some s) :
    ∃ body part tl, call (summaryRequest c) = CallResult.ok body ∧
      body.content = some (part :: tl) ∧ s = part.text := by
  unfold summarizeChunk at h
  cases hc : call (summaryRequest c) with
  | err => simp [hc] at h
  | ok body =>
    simp only [hc] at h
    cases hcon : body.content with
    | none => simp [hcon] at h
    | some parts =>
      simp only [hcon] at h
      cases parts with
      | nil => simp at h
      | cons part tl =>
        refine ⟨body, part, tl, rfl, hcon, ?_⟩
        simpa using h.symm

/-- If the per-chunk summarization of any chunk of the list yields None, the
whole loop yields None. -/
theorem summarizeAll_none (call : RequestBody → CallResult) :
    ∀ (docs : List String) (k : Nat) (hk : k < docs.length),
      summarizeChunk call (docs.get ⟨k, hk⟩) = none →
      summarizeAll call docs = none := by
  intro docs
  induction docs with
  | nil => intro k hk; simp at hk
  | cons c cs ih =>
    intro k hk hnone
    cases k with
    | zero =>
      simp only [List.get] at hnone
      simp [summarizeAll, hnone]
    | succ k =>
      have hk' : k < cs.length := by simpa using hk
      have htail := ih k hk' (by simpa using hnone)
      cases hsc : summarizeChunk call c <;> simp [summarizeAll, hsc, htail]

/-- On success the loop returns one summary per chunk, in chunk order, each
obtained by summarizeChunk on the corresponding chunk. -/
theorem summarizeAll_some (call : RequestBody → CallResult) :
    ∀ (docs : List String) (ss : List String), summarizeAll call docs = some ss →
      ss.length = docs.length ∧
      ∀ i (hi : i < docs.length) (hi' : i < ss.length),
        summarizeChunk call (docs.get ⟨i, hi⟩) = some (ss.get ⟨i, hi'⟩) := by
  intro docs
  induction docs with
  | nil =>
    intro ss h
    simp only [summarizeAll] at h
    cases h
    exact ⟨rfl, by intro i hi; simp at hi⟩
  | cons c cs ih =>
    intro ss h
    simp only [summarizeAll] at h
    cases hsc : summarizeChunk call c with
    | none => rw [hsc] at h; exact absurd h (by simp)
    | some s =>
      rw [hsc] at h
      cases hall : summarizeAll call cs with
      | none => rw [hall] at h; exact absurd h (by simp)
      | some ss' =>
        rw [hall] at h
        have hss : ss = s :: ss' := by simpa using h.symm
        subst hss
        obtain ⟨hlen, hidx⟩ := ih ss' hall
        refine ⟨by simp [hlen], ?_⟩
        intro i hi hi'
        cases i with
        | zero => simpa using hsc
        | succ i =>
          have hi2 : i < cs.length := by simpa using hi
          have hi2' : i < ss'.length := by simpa using hi'
          simpa using hidx i hi2 hi2'

/-! ### Claims about the Summarizer -/

/-- Claim C1: for every chunk sequence on which every per-chunk model call
succeeds (producing summary `f chunk` for each chunk), generate_summary
returns the concatenation of the per-chunk summaries joined by a single
space, in chunk order. -/
theorem generate_summary_all_success (call : RequestBody → CallResult)
    (documents : List String) (f : String → String)
    (h : ∀ chunk ∈ documents, summarizeChunk call chunk = some (f chunk)) :
    generate_summary call documents =
      some (String.intercalate " " (documents.map f)) := by
  suffices hs : ∀ (docs : List String),
      (∀ chunk ∈ docs, summarizeChunk call chunk = some (f chunk)) →
      summarizeAll call docs = some (docs.map f) by
    simp [generate_summary, hs documents h]
  intro docs
  induction docs with
  | nil => intro _; rfl
  | cons c cs ih =>
    intro hdocs
    have hc := hdocs c (by simp)
    have ih' := ih (fun x hx => hdocs x (by simp [hx]))
    simp [summarizeAll, hc, ih']

/-- Claim C1 witness: two chunks summarized to S1 and S2 give final summary
"S1 S2" (single-space join, order preserved), as in Scenario 6. -/
theorem generate_summary_all_success_witness :
    generate_summary
      (fun rb => CallResult.ok ⟨some [⟨match rb.messages with
        | [_, _, m] => if m.content = "a" then "S1" else "S2"
        | _ => ""⟩]⟩)
      ["a", "b"] = some "S1 S2" := by
  have h := generate_summary_all_success
      (fun rb => CallResult.ok ⟨some [⟨match rb.messages with
        | [_, _, m] => if m.content = "a" then "S1" else "S2"
        | _ => ""⟩]⟩)
      ["a", "b"] (fun c => if c = "a" then "S1" else "S2") (by decide)
  simpa using h

/-- Claim C2: if the model call for chunk k (0-indexed here) raises, the whole
generate_summary run returns None, regardless of the outcome on all other
chunks: no partial joined result is ever returned. -/
theorem generate_summary_any_failure (call : RequestBody → CallResult)
    (documents : List String) (k : Nat) (hk : k < documents.length)
    (hfail : call (summaryRequest (documents.get ⟨k, hk⟩)) = CallResult.err) :
    generate_summary call documents = none := by
  have hchunk : summarizeChunk call (documents.get ⟨k, hk⟩) = none := by
    unfold summarizeChunk
    rw [hfail]
  simp [generate_summary, summarizeAll_none call documents k hk hchunk]

/-- Claim C2 witness: with three chunks where the first two calls succeed and
the third raises, generate_summary returns None. -/
theorem generate_summary_any_failure_witness :
    generate_summary
      (fun rb => match rb.messages with
        | [_, _, m] => if m.content = "c" then CallResult.err
            else CallResult.ok ⟨some [⟨"S"⟩]⟩
        | _ => CallResult.err)
      ["a", "b", "c"] = none :=
  generate_summary_any_failure
    (fun rb => match rb.messages with
      | [_, _, m] => if m.content = "c" then CallResult.err
          else CallResult.ok ⟨some [⟨"S"⟩]⟩
      | _ => CallResult.err)
    ["a", "b", "c"] 2 (by decide) rfl

/-- Claim C3: on success the number of per-chunk summaries equals the number
of chunks, their order matches the chunk order, the i-th summary is the text
of the first content part of the model response to the i-th chunk, and the
final result is their space-join. -/
theorem generate_summary_order (call : RequestBody → CallResult)
    (documents ss : List String) (h : summarizeAll call documents = some ss) :
    ss.length = documents.length ∧
    (∀ i (hi : i < documents.length) (hi' : i < ss.length),
      ∃ body part tl,
        call (summaryRequest (documents.get ⟨i, hi⟩)) = CallResult.ok body ∧
        body.content = some (part :: tl) ∧
        ss.get ⟨i, hi'⟩ = part.text) ∧
    generate_summary call documents = some (String.intercalate " " ss) := by
  obtain ⟨hlen, hidx⟩ := summarizeAll_some call documents ss h
  refine ⟨hlen, ?_, by simp [generate_summary, h]⟩
  intro i hi hi'
  obtain ⟨body, part, tl, hcall, hcon, htext⟩ :=
    summarizeChunk_some call _ _ (hidx i hi hi')
  exact ⟨body, part, tl, hcall, hcon, htext⟩

/-- Claim C3 witness: a one-chunk run whose call succeeds with one content
part has exactly one summary and final summary equal to it. -/
theorem generate_summary_order_witness :
    (["S"] : List String).length = (["a"] : List String).length ∧
    generate_summary (fun _ => CallResult.ok ⟨some [⟨"S"⟩]⟩) ["a"] = some "S" := by
  have h := generate_summary_order (fun _ => CallResult.ok ⟨some [⟨"S"⟩]⟩)
    ["a"] ["S"] (by decide)
  exact ⟨h.1, by simpa using h.2.2⟩

/-- Claim C9: if the response body for any chunk lacks a content key or has an
empty content list, generate_summary returns None; and every summary in any
successful run is the text of an actual first content part of a response to a
chunk of the run, so the fallback string "No summary generated" never enters a
returned summary through the missing-key path (indexing the fallback raises,
which is caught as a terminal error). -/
theorem generate_summary_bad_content :
    (∀ (call : RequestBody → CallResult) (documents : List String) (k : Nat)
      (hk : k < documents.length) (body : ResponseBody),
      call (summaryRequest (documents.get ⟨k, hk⟩)) = CallResult.ok body →
      (body.content = none ∨ body.content = some []) →
      generate_summary call documents = none) ∧
    (∀ (call : RequestBody → CallResult) (docs ss : List String),
      summarizeAll call docs = some ss →
      ∀ s ∈ ss, ∃ chunk body part tl, chunk ∈ docs ∧
        call (summaryRequest chunk) = CallResult.ok body ∧
        body.content = some (part :: tl) ∧ s = part.text) := by
  constructor
  · intro call documents k hk body hcall hbad
    have hchunk : summarizeChunk call (documents.get ⟨k, hk⟩) = none := by
      unfold summarizeChunk
      rw [hcall]
      rcases hbad with hb | hb <;> simp [hb]
    simp [generate_summary, summarizeAll_none call documents k hk hchunk]
  · intro call docs ss h s hs
    obtain ⟨hlen, hidx⟩ := summarizeAll_some call docs ss h
    obtain ⟨i, hget⟩ := List.mem_iff_get.mp hs
    have hi : (i : Nat) < docs.length := hlen ▸ i.isLt
    obtain ⟨body, part, tl, hcall, hcon, htext⟩ :=
      summarizeChunk_some call _ _ (hidx i hi i.isLt)
    refine ⟨docs.get ⟨i, hi⟩, body, part, tl, List.get_mem docs _ _, hcall, hcon, ?_⟩
    rw [← hget]
    simpa using htext

/-- Claim C9 witness: a single chunk whose response body has no content key
makes generate_summary return None. -/
theorem generate_summary_bad_content_witness :
    generate_summary (fun _ => CallResult.ok ⟨none⟩) ["a"] = none :=
  generate_summary_bad_content.1 (fun _ => CallResult.ok ⟨none⟩) ["a"] 0
    (by decide) ⟨none⟩ rfl (Or.inl rfl)

/-! ## Text extraction (extract_text_from_image / extract_text_from_pdf,
src/app.py lines 72-110) -/

/-- One block of a Textract response, with its BlockType and Text fields. -/
structure Block where
  blockType : String
  text : String

/-- extract_text_from_image (src/app.py): on a successful
detect_document_text call, the loop appends Text plus a newline for every
block whose BlockType is LINE; any raised error returns None. -/
def extract_text_from_image (resp : Except String (List Block)) : Option String :=
  match resp with
  | Except.error _ => none
  | Except.ok blocks =>
      some (blocks.foldl (fun text item =>
        if item.blockType = "LINE" then text ++ item.text ++ "\n" else text) "")

/-- extract_text_from_pdf (src/app.py): on a successful analyze_document call
(tables and forms features requested), the loop appends Text plus a newline
for every block whose BlockType is LINE; any raised error returns None. -/
def extract_text_from_pdf (resp : Except String (List Block)) : Option String :=
  match resp with
  | Except.error _ => none
  | Except.ok blocks =>
      some (blocks.foldl (fun text block =>
        if block.blockType = "LINE" then text ++ block.text ++ "\n" else text) "")

/-- The reconstruction rule in the words of the spec: the concatenation, in
the order returned, of the text of every block whose type is LINE, each
followed by one newline. -/
def specLineReconstruction (blocks : List Block) : String :=
  ((blocks.filter (fun b => b.blockType = "LINE")).map
    (fun b => b.text ++ "\n")).foldr (fun a acc => a ++ acc) ""

/-- The LINE-collecting fold, started from any accumulator, appends the spec
reconstruction to that accumulator. -/
theorem foldl_line_append (blocks : List Block) : ∀ (acc : String),
    blocks.foldl (fun text item =>
        if item.blockType = "LINE" then text ++ item.text ++ "\n" else text) acc
      = acc ++ specLineReconstruction blocks := by
  induction blocks with
  | nil => intro acc; simp [specLineReconstruction]
  | cons b bs ih =>
    intro acc
    by_cases hb : b.blockType = "LINE" <;>
      simp [specLineReconstruction, hb, ih, String.append_assoc] at ih ⊢ <;>
      simp [ih, String.append_assoc]

/-! ### Claim about the extractors -/

/-- Claim C7: both extractors apply the identical reconstruction rule: on a
successful response the text is the concatenation, in order, of the text of
every LINE block, each followed by one newline; and on every equal response
(success or error) the two extractors return equal results, the table/form
features requested in PDF mode not altering the reconstruction. -/
theorem extractors_line_rule (blocks : List Block) :
    extract_text_from_image (Except.ok blocks)
        = some (specLineReconstruction blocks) ∧
    extract_text_from_pdf (Except.ok blocks)
        = some (specLineReconstruction blocks) ∧
    ∀ resp : Except String (List Block),
      extract_text_from_image resp = extract_text_from_pdf resp := by
  refine ⟨?_, ?_, ?_⟩
  · simp [extract_text_from_image, foldl_line_append blocks ""]
  · simp [extract_text_from_pdf, foldl_line_append blocks ""]
  · intro resp
    cases resp <;> rfl

/-! ## Document processing (process_document, src/app.py lines 113-140) -/

/-- The tail of process_document after extraction: Python truthiness of
`if extracted_text:` makes both None and the empty string take the error
branch, which returns an empty chunk list; otherwise the splitter runs. -/
def afterExtraction (splitter : String → List String) : Option String → List String
  | none => []
  | some extracted_text =>
      if extracted_text = "" then [] else splitter extracted_text

/-- process_document (src/app.py): dispatch on the file type, extract, then
split.  The two extractors and the configured splitter are explicit function
parameters standing for the inner functions and the langchain splitter; the
file path is None when upload failed, and `if file_path and file_type:` treats
None and empty strings as falsy. -/
def process_document (extractImage extractPdf : String → Option String)
    (splitter : String → List String) :
    Option String → String → List String
  | none, _ => []
  | some file_path, file_type =>
    if file_path = "" ∨ file_type = "" then []
    else if file_type = "jpg" ∨ file_type = "jpeg" ∨ file_type = "tiff" then
      afterExtraction splitter (extractImage file_path)
    else if file_type = "pdf" then
      afterExtraction splitter (extractPdf file_path)
    else []

/-! ### Claim about empty extraction -/

/-- Claim C8: whenever extraction yields the empty string (zero LINE blocks)
or no text at all (an extraction error), process_document returns an empty
chunk sequence, and its result does not depend on the splitter at all: the
splitter is never invoked. -/
theorem process_document_no_text (extractImage extractPdf : String → Option String)
    (hI : ∀ p, extractImage p = none ∨ extractImage p = some "")
    (hP : ∀ p, extractPdf p = none ∨ extractPdf p = some "") :
    ∀ (splitter splitter2 : String → List String)
      (file_path : Option String) (file_type : String),
      process_document extractImage extractPdf splitter file_path file_type = [] ∧
      process_document extractImage extractPdf splitter file_path file_type
        = process_document extractImage extractPdf splitter2 file_path file_type := by
  have hafter : ∀ (s : String → List String) (r : Option String),
      (r = none ∨ r = some "") → afterExtraction s r = [] := by
    intro s r hr
    rcases hr with hr | hr <;> subst hr <;> simp [afterExtraction]
  intro splitter splitter2 file_path file_type
  cases file_path with
  | none => exact ⟨rfl, rfl⟩
  | some fp =>
    simp only [process_document]
    by_cases h0 : fp = "" ∨ file_type = ""
    · simp [h0]
    · simp only [h0, if_false]
      by_cases h1 : file_type = "jpg" ∨ file_type = "jpeg" ∨ file_type = "tiff"
      · simp [h1, hafter _ _ (hI fp)]
      · simp only [h1, if_false]
        by_cases h2 : file_type = "pdf"
        · simp [h2, hafter _ _ (hP fp)]
        · simp [h2]

/-- Claim C8 witness: an extractor pair returning empty text for images and
None for PDFs makes process_document return no chunks for a PDF path, with
the result independent of the splitter. -/
theorem process_document_no_text_witness :
    process_document (fun _ => some "") (fun _ => none) (fun t => [t])
        (some "f.pdf") "pdf" = [] ∧
    process_document (fun _ => some "") (fun _ => none) (fun t => [t])
        (some "f.pdf") "pdf"
      = process_document (fun _ => some "") (fun _ => none) (fun _ => [])
        (some "f.pdf") "pdf" :=
  process_document_no_text (fun _ => some "") (fun _ => none)
    (fun _ => Or.inr rfl) (fun _ => Or.inl rfl)
    (fun t => [t]) (fun _ => []) (some "f.pdf") "pdf"

/-! ## Document upload (upload_document, src/app.py lines 36-64)

The local file system is embedded as a map from path to file bytes; the
directory-creation call has no observable effect on file contents and is not
modelled.  `str(uuid.uuid4())[:8]` is a nondeterministic input and is passed
in as the uniqueId parameter. -/

/-- The upload folder of upload_document. -/
def upload_folder : String := "./uploaded_files"

/-- Index of the last dot in a character list (helper for splitext). -/
def lastDotIdx (chars : List Char) : Option Nat :=
  ((chars.enum.filter (fun p => p.2 = '.')).map Prod.fst).getLast?

/-- os.path.splitext for a bare file name: split at the last dot, except that
a name whose characters before that dot are all dots has no extension. -/
def splitext (name : String) : String × String :=
  match lastDotIdx name.toList with
  | none => (name, "")
  | some i =>
    if (name.toList.take i).all (fun c => c = '.') then (name, "")
    else (String.mk (name.toList.take i), String.mk (name.toList.drop i))

/-- The alternative path built by the f-string in upload_document when the
original target path already exists. -/
def suffixedPath (name uniqueId : String) : String :=
  upload_folder ++ "/" ++ (splitext name).1 ++ "_" ++ uniqueId ++ (splitext name).2

/-- upload_document (src/app.py) over an explicit file-system state: with no
uploaded file it returns None; otherwise it targets upload_folder/name,
switches to the uuid-suffixed path when that target already exists, writes the
uploaded bytes there, and returns the written path.  Returns the new
file-system state together with the returned path. -/
def upload_document (fs : String → Option (List Nat)) (uniqueId : String) :
    Option (String × List Nat) → (String → Option (List Nat)) × Option String
  | none => (fs, none)
  | some (name, contents) =>
    let target := upload_folder ++ "/" ++ name
    let file_path := if (fs target).isSome then suffixedPath name uniqueId else target
    (fun q => if q = file_path then some contents else fs q, some file_path)

/-! ### Claim C10: no overwrite of existing files -/

/-- Claim C10 counterexample: uploading a.txt when both a.txt and the
suffixed path a_12345678.txt already exist (with the short unique id equal to
12345678) overwrites the bytes previously stored at a_12345678.txt: the claim
that no previously uploaded file is ever changed is false as stated. -/
theorem upload_document_overwrite_counterexample :
    ((fun p => if p = "./uploaded_files/a.txt" then some [0]
        else if p = "./uploaded_files/a_12345678.txt" then some [1] else none)
        ("./uploaded_files/" ++ "a.txt")).isSome = true ∧
    (fun p => if p = "./uploaded_files/a.txt" then some [0]
        else if p = "./uploaded_files/a_12345678.txt" then some [1] else none)
      "./uploaded_files/a_12345678.txt" = some [1] ∧
    (upload_document
        (fun p => if p = "./uploaded_files/a.txt" then some [0]
          else if p = "./uploaded_files/a_12345678.txt" then some [1] else none)
        "12345678" (some ("a.txt", [2]))).1
      "./uploaded_files/a_12345678.txt" = some [2] ∧
    some ([2] : List Nat) ≠ some ([1] : List Nat) := by
  refine ⟨rfl, rfl, ?_, by decide⟩
  decide

/-- Claim C10 amended: when the target path upload_folder/name already exists,
upload_document writes to the uuid-suffixed path and returns it; provided
that suffixed path is not itself an already-existing file, the bytes of every
existing file are left unchanged.  (Without that proviso the claim fails, as
the counterexample shows: the code never re-checks the suffixed path.) -/
theorem upload_document_no_overwrite (fs : String → Option (List Nat))
    (name : String) (contents : List Nat) (uniqueId : String)
    (hex : (fs (upload_folder ++ "/" ++ name)).isSome = true)
    (hfresh : fs (suffixedPath name uniqueId) = none) :
    (upload_document fs uniqueId (some (name, contents))).2
        = some (suffixedPath name uniqueId) ∧
    ∀ q, (fs q).isSome = true →
      (upload_document fs uniqueId (some (name, contents))).1 q = fs q := by
  constructor
  · simp [upload_document, hex]
  · intro q hq
    have hne : q ≠ suffixedPath name uniqueId := by
      intro he
      rw [he, hfresh] at hq
      simp at hq
    simp [upload_document, hex, hne]

/-- Claim C10 amended witness: uploading b.txt over an existing b.txt with a
fresh suffixed path leaves the existing bytes at b.txt unchanged. -/
theorem upload_document_no_overwrite_witness :
    (upload_document (fun p => if p = "./uploaded_files/b.txt" then some [5] else none)
        "deadbeef" (some ("b.txt", [7]))).1 "./uploaded_files/b.txt"
      = (fun p => if p = "./uploaded_files/b.txt" then some [5] else none)
        "./uploaded_files/b.txt" :=
  (upload_document_no_overwrite
    (fun p => if p = "./uploaded_files/b.txt" then some [5] else none)
    "b.txt" [7] "deadbeef" (by decide) (by decide)).2
    "./uploaded_files/b.txt" (by decide)

/-! ## Text Splitter

Modelled from the spec: the splitter used by process_document is the
langchain RecursiveCharacterTextSplitter, library code whose source is not
part of this repository; the model below follows the Text Splitter contract
of the specification.  Text is a `List Char`; a separator is a `List Char`,
with the empty list standing for the empty-string (character-level)
separator.  The recursive splitter tries the first separator, recursively
re-splits only oversized pieces with the lower-priority separators, and
greedily merges adjacent small pieces (with the consumed separator
reinserted between merged pieces) up to the maximum size.  Each produced
chunk is paired with the separator text consumed at the boundary after it,
so that lossless reconstruction is expressible. -/

/-- Split a text at every occurrence of the non-empty separator
`a :: s'`, consuming the separator. -/
def splitOnSep (a : Char) (s' : List Char) : List Char → List (List Char)
  | [] => [[]]
  | c :: rest =>
    if (a :: s').isPrefixOf (c :: rest) then
      [] :: splitOnSep a s' (rest.drop s'.length)
    else
      match splitOnSep a s' rest with
      | [] => [[c]]
      | p :: ps => (c :: p) :: ps
termination_by t => t.length
decreasing_by
  · simp [List.length_drop]; omega
  · simp

/-- Join pieces back with a separator between adjacent pieces. -/
def joinSep (s : List Char) : List (List Char) → List Char
  | [] => []
  | [p] => p
  | p :: q :: ps => p ++ s ++ joinSep s (q :: ps)

/-- Character-level fallback split: cut the text into consecutive pieces of
n + 1 characters each (the last piece may be shorter). -/
def chopEvery (n : Nat) : List Char → List (List Char)
  | [] => []
  | c :: rest => (c :: rest.take n) :: chopEvery n (rest.drop n)
termination_by t => t.length
decreasing_by simp [List.length_drop]; omega

/-- Pair every piece with the separator consumed after it in the original
text: the between-pieces separator for all but the last piece, and the given
final separator for the last piece. -/
def attachSeps (s fin : List Char) : List (List Char) → List (List Char × List Char)
  | [] => []
  | [p] => [(p, fin)]
  | p :: q :: ps => (p, s) :: attachSeps s fin (q :: ps)

/-- Greedy merge of the split pieces into chunks, in original order.
Each entry carries a piece, the separator consumed after it, and the chunks
of its own recursive re-split (used only when the piece is oversized).  The
accumulator holds the chunk being grown and its pending trailing separator:
merging the next small piece into it reinserts that separator inside the
chunk; emitting the chunk at a boundary consumes it. -/
def mergeAux (cs : Nat) : Option (List Char × List Char) →
    List (List Char × List Char × List (List Char × List Char)) →
    List (List Char × List Char)
  | none, [] => []
  | some acc, [] => [acc]
  | st, (p, sep, recChunks) :: es =>
    if p.length ≤ cs then
      match st with
      | none => mergeAux cs (some (p, sep)) es
      | some (acc, pend) =>
        if acc.length + pend.length + p.length ≤ cs then
          mergeAux cs (some (acc ++ pend ++ p, sep)) es
        else
          (acc, pend) :: mergeAux cs (some (p, sep)) es
    else
      (match st with | none => [] | some acc => [acc]) ++
        recChunks ++ mergeAux cs none es

/-- Modelled from the spec: the recursive splitter core.  Given the ordered
separator list, a text and the separator text that follows this text in the
enclosing document (trail), produce the chunk list, each chunk paired with
the separator text consumed after it.  Empty text yields no chunks; a text
within the size bound is one chunk; otherwise the first separator is applied
and pieces are merged greedily, oversized pieces being re-split with the
remaining separators; the empty-string separator splits at character level. -/
def recSplit (cs : Nat) : List (List Char) → List Char → List Char →
    List (List Char × List Char)
  | [], t, trail =>
    if t = [] then (if trail = [] then [] else [([], trail)])
    else [(t, trail)]
  | [] :: _, t, trail =>
    if t = [] then (if trail = [] then [] else [([], trail)])
    else if t.length ≤ cs then [(t, trail)]
    else attachSeps [] trail (chopEvery (cs - 1) t)
  | (a :: s') :: rest, t, trail =>
    if t = [] then (if trail = [] then [] else [([], trail)])
    else if t.length ≤ cs then [(t, trail)]
    else
      mergeAux cs none
        ((attachSeps (a :: s') trail (splitOnSep a s' t)).map
          (fun pe => (pe.1, pe.2, recSplit cs rest pe.1 pe.2)))
termination_by seps _ _ => seps.length
decreasing_by simp

/-- split_text of the configured splitter: the chunk list, dropping the
bookkeeping of consumed separators. -/
def split_text (cs : Nat) (seps : List (List Char)) (t : List Char) :
    List (List Char) :=
  (recSplit cs seps t []).map Prod.fst

/-- The separator priority list configured in process_document. -/
def defaultSeps : List (List Char) :=
  [['\n', '\n'], ['\n'], ['.'], ['!'], ['?'], [','], [' '], []]

/-- Reconstruction of a chunk list: each chunk followed by the separator text
consumed after it. -/
def chunkJoin : List (List Char × List Char) → List Char
  | [] => []
  | (c, sep) :: rest => c ++ sep ++ chunkJoin rest

/-! ### Splitter helper lemmas -/

/-- splitOnSep always yields at least one piece. -/
theorem splitOnSep_ne_nil (a : Char) (s' : List Char) :
    ∀ t, splitOnSep a s' t ≠ [] := by
  intro t
  cases t with
  | nil => simp [splitOnSep]
  | cons c rest =>
    unfold splitOnSep
    split
    · simp
    · split <;> simp

/-- Prepending a character to the first piece prepends it to the join. -/
theorem joinSep_cons_head (s : List Char) (c : Char) (p : List Char)
    (ps : List (List Char)) :
    joinSep s ((c :: p) :: ps) = c :: joinSep s (p :: ps) := by
  cases ps <;> simp [joinSep]

/-- Joining the pieces of splitOnSep with the separator restores the text. -/
theorem splitOnSep_joinSep (a : Char) (s' : List Char) :
    ∀ t, joinSep (a :: s') (splitOnSep a s' t) = t := by
  intro t
  induction t using splitOnSep.induct a s' with
  | case1 => simp [splitOnSep, joinSep]
  | case2 c rest hpre ih =>
    rw [splitOnSep, if_pos hpre]
    obtain ⟨p, ps, hps⟩ :=
      List.exists_cons_of_ne_nil (splitOnSep_ne_nil a s' (rest.drop s'.length))
    rw [hps]
    rw [hps] at ih
    simp only [joinSep, List.nil_append]
    rw [ih]
    obtain ⟨u, hu⟩ := List.isPrefixOf_iff_prefix.mp hpre
    have ha : a = c := by
      have := congrArg (fun l => l.head?) hu
      simpa using this
    have hrest : s' ++ u = rest := by
      have := congrArg List.tail hu
      simpa using this
    subst ha
    rw [← hrest, List.drop_left]
    simp [hrest]
  | case3 c rest hpre hnil ih =>
    exact absurd hnil (splitOnSep_ne_nil a s' rest)
  | case4 c rest hpre p ps hps ih =>
    rw [splitOnSep, if_neg hpre, hps]
    rw [hps] at ih
    simp only []
    rw [joinSep_cons_head, ih]

/-- The character-level chop restores the text by plain concatenation. -/
theorem chopEvery_join (n : Nat) : ∀ t, (chopEvery n t).flatten = t := by
  intro t
  induction t using chopEvery.induct n with
  | case1 => simp [chopEvery]
  | case2 c rest ih =>
    rw [chopEvery]
    simp [ih]

/-- Every piece of the character-level chop has at most n + 1 characters. -/
theorem chopEvery_length (n : Nat) : ∀ t c, c ∈ chopEvery n t →
    c.length ≤ n + 1 := by
  intro t
  induction t using chopEvery.induct n with
  | case1 => simp [chopEvery]
  | case2 c rest ih =>
    intro c' hc'
    rw [chopEvery] at hc'
    rcases List.mem_cons.mp hc' with h | h
    · subst h
      simp only [List.length_cons]
      have := List.length_take_le n rest
      omega
    · exact ih c' h

/-- chopEvery of a non-empty text is non-empty. -/
theorem chopEvery_ne_nil (n : Nat) (t : List Char) (ht : t ≠ []) :
    chopEvery n t ≠ [] := by
  cases t with
  | nil => exact absurd rfl ht
  | cons c rest => rw [chopEvery]; simp

/-- Joining with the empty separator is plain concatenation. -/
theorem joinSep_nil : ∀ ps : List (List Char), joinSep [] ps = ps.flatten := by
  intro ps
  induction ps with
  | nil => rfl
  | cons p ps ih =>
    cases ps with
    | nil => simp [joinSep]
    | cons q qs =>
      simp only [joinSep, List.flatten_cons] at ih ⊢
      simp [ih]

/-- Reconstruction of the accumulator of the greedy merge. -/
def stJoin : Option (List Char × List Char) → List Char
  | none => []
  | some (acc, pend) => acc ++ pend

/-- Reconstruction of an entry list: each piece followed by the separator
consumed after it. -/
def entryJoin : List (List Char × List Char × List (List Char × List Char)) →
    List Char
  | [] => []
  | (p, sep, _) :: es => p ++ sep ++ entryJoin es

/-- chunkJoin distributes over list concatenation. -/
theorem chunkJoin_append : ∀ l₁ l₂ : List (List Char × List Char),
    chunkJoin (l₁ ++ l₂) = chunkJoin l₁ ++ chunkJoin l₂ := by
  intro l₁ l₂
  induction l₁ with
  | nil => simp [chunkJoin]
  | cons e l ih =>
    obtain ⟨c, sep⟩ := e
    simp [chunkJoin, ih]

/-- Mapping recursive results onto attached pieces does not change the
piece-and-separator reconstruction. -/
theorem entryJoin_map (g : List Char × List Char → List (List Char × List Char)) :
    ∀ l : List (List Char × List Char),
      entryJoin (l.map (fun pe => (pe.1, pe.2, g pe))) = chunkJoin l := by
  intro l
  induction l with
  | nil => rfl
  | cons pe l ih =>
    obtain ⟨p, sep⟩ := pe
    simp [entryJoin, chunkJoin, ih]

/-- Reconstruction of attached pieces: the pieces joined with the
between-pieces separator, followed by the final separator. -/
theorem attachSeps_chunkJoin (s fin : List Char) :
    ∀ (ps : List (List Char)) (p : List Char),
      chunkJoin (attachSeps s fin (p :: ps)) = joinSep s (p :: ps) ++ fin := by
  intro ps
  induction ps with
  | nil => intro p; simp [attachSeps, chunkJoin, joinSep]
  | cons q qs ih =>
    intro p
    simp only [attachSeps, chunkJoin, joinSep, ih q]
    simp [List.append_assoc]

/-- The first component of an attached pair is one of the pieces. -/
theorem attachSeps_mem_fst (s fin : List Char) :
    ∀ (ps : List (List Char)) (c sep : List Char),
      (c, sep) ∈ attachSeps s fin ps → c ∈ ps := by
  intro ps
  induction ps with
  | nil => intro c sep h; simp [attachSeps] at h
  | cons p qs ih =>
    intro c sep h
    cases qs with
    | nil =>
      simp [attachSeps] at h
      simp [h.1]
    | cons q qs' =>
      simp only [attachSeps, List.mem_cons] at h
      rcases h with h | h
      · simp [Prod.ext_iff] at h
        simp [h.1]
      · exact List.mem_cons_of_mem _ (ih c sep h)

/-- The greedy merge preserves reconstruction: its chunks, with consumed
separators reinserted, spell the accumulator text followed by the text of
all entries, provided each entry own recursive chunks reconstruct that
entry piece and trailing separator. -/
theorem mergeAux_chunkJoin (cs : Nat) :
    ∀ (es : List (List Char × List Char × List (List Char × List Char)))
      (st : Option (List Char × List Char)),
      (∀ e ∈ es, chunkJoin e.2.2 = e.1 ++ e.2.1) →
      chunkJoin (mergeAux cs st es) = stJoin st ++ entryJoin es := by
  intro es
  induction es with
  | nil =>
    intro st _
    cases st with
    | none => simp [mergeAux, stJoin, entryJoin, chunkJoin]
    | some acc =>
      obtain ⟨a, pend⟩ := acc
      simp [mergeAux, stJoin, entryJoin, chunkJoin]
  | cons e es ih =>
    intro st hes
    obtain ⟨p, sep, recChunks⟩ := e
    have he : chunkJoin recChunks = p ++ sep := hes (p, sep, recChunks) (by simp)
    have hes' : ∀ e ∈ es, chunkJoin e.2.2 = e.1 ++ e.2.1 :=
      fun e h => hes e (List.mem_cons_of_mem _ h)
    by_cases hp : p.length ≤ cs
    · cases st with
      | none =>
        simp only [mergeAux, if_pos hp]
        rw [ih _ hes']
        simp [stJoin, entryJoin]
      | some acc =>
        obtain ⟨a, pend⟩ := acc
        simp only [mergeAux, if_pos hp]
        by_cases hfit : a.length + pend.length + p.length ≤ cs
        · rw [if_pos hfit, ih _ hes']
          simp [stJoin, entryJoin]
        · rw [if_neg hfit]
          simp only [chunkJoin]
          rw [ih _ hes']
          simp [stJoin, entryJoin]
    · cases st with
      | none =>
        simp only [mergeAux, if_neg hp]
        rw [chunkJoin_append, chunkJoin_append, ih _ hes', he]
        simp [stJoin, entryJoin, chunkJoin]
      | some acc =>
        obtain ⟨a, pend⟩ := acc
        simp only [mergeAux, if_neg hp]
        rw [chunkJoin_append, chunkJoin_append, ih _ hes', he]
        simp [stJoin, entryJoin, chunkJoin]

/-- The greedy merge emits only chunks within the size bound, provided the
accumulator chunk is within the bound and so is every chunk of every entry
recursive re-split. -/
theorem mergeAux_bound (cs : Nat) :
    ∀ (es : List (List Char × List Char × List (List Char × List Char)))
      (st : Option (List Char × List Char)),
      (∀ acc pend, st = some (acc, pend) → acc.length ≤ cs) →
      (∀ e ∈ es, ∀ c sep, (c, sep) ∈ e.2.2 → c.length ≤ cs) →
      ∀ c sep, (c, sep) ∈ mergeAux cs st es → c.length ≤ cs := by
  intro es
  induction es with
  | nil =>
    intro st hst _ c sep hc
    cases st with
    | none => simp [mergeAux] at hc
    | some acc =>
      obtain ⟨a, pend⟩ := acc
      simp [mergeAux] at hc
      exact hc.1 ▸ hst a pend rfl
  | cons e es ih =>
    intro st hst hes c sep hc
    obtain ⟨p, sep', recChunks⟩ := e
    have he : ∀ c sep, (c, sep) ∈ recChunks → c.length ≤ cs :=
      fun c sep h => hes (p, sep', recChunks) (by simp) c sep h
    have hes' : ∀ e ∈ es, ∀ c sep, (c, sep) ∈ e.2.2 → c.length ≤ cs :=
      fun e h => hes e (List.mem_cons_of_mem _ h)
    by_cases hp : p.length ≤ cs
    · cases st with
      | none =>
        simp only [mergeAux, if_pos hp] at hc
        exact ih _ (by rintro acc pend h; cases h; exact hp) hes' c sep hc
      | some acc =>
        obtain ⟨a, pend⟩ := acc
        simp only [mergeAux, if_pos hp] at hc
        by_cases hfit : a.length + pend.length + p.length ≤ cs
        · rw [if_pos hfit] at hc
          refine ih _ ?_ hes' c sep hc
          rintro acc' pend' h
          cases h
          simp only [List.length_append]
          omega
        · rw [if_neg hfit] at hc
          rcases List.mem_cons.mp hc with h | h
          · simp only [Prod.mk.injEq] at h
            rw [h.1]
            exact hst a pend rfl
          · exact ih _ (by rintro acc' pend' h'; cases h'; exact hp) hes' c sep h
    · cases st with
      | none =>
        simp only [mergeAux, if_neg hp, List.mem_append] at hc
        rcases hc with (hc | hc) | hc
        · simp at hc
        · exact he c sep hc
        · exact ih none (by rintro acc pend h; cases h) hes' c sep hc
      | some acc =>
        obtain ⟨a, pend⟩ := acc
        simp only [mergeAux, if_neg hp, List.mem_append] at hc
        rcases hc with (hc | hc) | hc
        · simp at hc
          rw [hc.1]
          exact hst a pend rfl
        · exact he c sep hc
        · exact ih none (by rintro acc pend h; cases h) hes' c sep hc

/-- Lossless reconstruction of the recursive splitter: the chunks, with the
separator text consumed after each reinserted, spell the input text followed
by its trailing separator. -/
theorem recSplit_chunkJoin (cs : Nat) : ∀ (seps : List (List Char)) (t trail : List Char),
    chunkJoin (recSplit cs seps t trail) = t ++ trail := by
  intro seps
  induction seps with
  | nil =>
    intro t trail
    by_cases ht : t = []
    · subst ht
      by_cases htr : trail = [] <;> simp [recSplit, htr, chunkJoin]
    · simp [recSplit, ht, chunkJoin]
  | cons s rest ih =>
    intro t trail
    cases s with
    | nil =>
      by_cases ht : t = []
      · subst ht
        by_cases htr : trail = [] <;> simp [recSplit, htr, chunkJoin]
      · by_cases hlen : t.length ≤ cs
        · simp [recSplit, ht, hlen, chunkJoin]
        · simp only [recSplit, if_neg ht, if_neg hlen]
          obtain ⟨p, ps, hps⟩ :=
            List.exists_cons_of_ne_nil (chopEvery_ne_nil (cs - 1) t ht)
          rw [hps, attachSeps_chunkJoin, joinSep_nil, ← hps, chopEvery_join]
    | cons a s' =>
      by_cases ht : t = []
      · subst ht
        by_cases htr : trail = [] <;> simp [recSplit, htr, chunkJoin]
      · by_cases hlen : t.length ≤ cs
        · simp [recSplit, ht, hlen, chunkJoin]
        · simp only [recSplit, if_neg ht, if_neg hlen]
          rw [mergeAux_chunkJoin cs _ none ?hes]
          case hes =>
            intro e he
            obtain ⟨pe, hpe, rfl⟩ := List.mem_map.mp he
            exact ih pe.1 pe.2
          rw [entryJoin_map]
          obtain ⟨p, ps, hps⟩ :=
            List.exists_cons_of_ne_nil (splitOnSep_ne_nil a s' t)
          rw [hps, attachSeps_chunkJoin, ← hps, splitOnSep_joinSep]
          simp [stJoin]

/-- Size bound of the recursive splitter: when the separator list contains
the empty-string separator and the bound is at least one character, every
produced chunk is within the bound. -/
theorem recSplit_bound (cs : Nat) (hcs : 1 ≤ cs) : ∀ (seps : List (List Char)),
    [] ∈ seps → ∀ (t trail c sep : List Char),
    (c, sep) ∈ recSplit cs seps t trail → c.length ≤ cs := by
  intro seps
  induction seps with
  | nil => intro h; simp at h
  | cons s rest ih =>
    intro hmem t trail c sep hc
    cases s with
    | nil =>
      by_cases ht : t = []
      · subst ht
        by_cases htr : trail = []
        · simp [recSplit, htr] at hc
        · simp [recSplit, htr] at hc
          simp [hc.1]
      · by_cases hlen : t.length ≤ cs
        · simp [recSplit, ht, hlen] at hc
          rw [hc.1]
          exact hlen
        · simp only [recSplit, if_neg ht, if_neg hlen] at hc
          have hmem' := attachSeps_mem_fst [] trail _ c sep hc
          have := chopEvery_length (cs - 1) t c hmem'
          omega
    | cons a s' =>
      have hrest : [] ∈ rest := by
        rcases List.mem_cons.mp hmem with h | h
        · exact absurd h.symm (by simp)
        · exact h
      by_cases ht : t = []
      · subst ht
        by_cases htr : trail = []
        · simp [recSplit, htr] at hc
        · simp [recSplit, htr] at hc
          simp [hc.1]
      · by_cases hlen : t.length ≤ cs
        · simp [recSplit, ht, hlen] at hc
          rw [hc.1]
          exact hlen
        · simp only [recSplit, if_neg ht, if_neg hlen] at hc
          refine mergeAux_bound cs _ none (by rintro acc pend h; cases h) ?_ c sep hc
          intro e he c' sep' hc'
          obtain ⟨pe, hpe, rfl⟩ := List.mem_map.mp he
          exact ih hrest pe.1 pe.2 c' sep' hc'

/-- A non-empty text within the size bound is returned whole as the single
chunk, under the configuration of process_document. -/
theorem split_text_whole (t : List Char) (ht : t ≠ []) (hlen : t.length ≤ 4000) :
    split_text 4000 defaultSeps t = [t] := by
  simp [split_text, defaultSeps, recSplit, ht, hlen]

/-! ### Claims about the Text Splitter -/

/-- Claim C4: every chunk produced by the splitter configured with
chunk_size 4000 and the separator list of process_document (which ends with
the empty-string separator) has length at most 4000, for every input text:
the character-level fallback rules out any indivisible-unit exception. -/
theorem split_text_chunk_bound (t c : List Char)
    (hc : c ∈ split_text 4000 defaultSeps t) : c.length ≤ 4000 := by
  obtain ⟨⟨c', sep⟩, hmem, rfl⟩ := List.mem_map.mp hc
  exact recSplit_bound 4000 (by omega) defaultSeps (by simp [defaultSeps])
    t [] c' sep hmem

/-- Claim C4 witness: the bound holds on a concrete two-character input. -/
theorem split_text_chunk_bound_witness : (['h', 'i'] : List Char).length ≤ 4000 :=
  split_text_chunk_bound ['h', 'i'] ['h', 'i']
    (by rw [split_text_whole ['h', 'i'] (by decide) (by decide)]; simp)

/-- Claim C5: for every input text, every chunk size and every separator
list, concatenating the chunks produced by the splitter with the separator
text consumed at each boundary reinserted reproduces the original text
exactly. -/
theorem split_text_lossless (cs : Nat) (seps : List (List Char)) (t : List Char) :
    chunkJoin (recSplit cs seps t []) = t ∧
    split_text cs seps t = (recSplit cs seps t []).map Prod.fst := by
  constructor
  · have := recSplit_chunkJoin cs seps t []
    simpa using this
  · rfl

/-- Claim C6: with the configuration of process_document, the empty text
yields no chunks; every non-empty text of length at most 4000 yields exactly
one chunk, the whole text; in particular the text "A. B. C." yields exactly
the one chunk "A. B. C.". -/
theorem split_text_small_inputs :
    split_text 4000 defaultSeps [] = [] ∧
    (∀ t : List Char, t ≠ [] → t.length ≤ 4000 →
      split_text 4000 defaultSeps t = [t]) ∧
    split_text 4000 defaultSeps ("A. B. C.".toList) = ["A. B. C.".toList] := by
  refine ⟨?_, fun t ht hlen => split_text_whole t ht hlen, ?_⟩
  · simp [split_text, defaultSeps, recSplit]
  · exact split_text_whole _ (by decide) (by decide)

/-- Claim C6 witness: a concrete one-character text is returned as the single
chunk. -/
theorem split_text_small_inputs_witness :
    split_text 4000 defaultSeps ['x'] = [['x']] :=
  split_text_small_inputs.2.1 ['x'] (by decide) (by decide)
